import Mathlib

/-!
Shallow embedding of the change-set aggregation core of `add-interactive.c`:
the per-path statistics (`adddel`), the record list (`file_list`), the
pathname hashmap, the two-phase diff collection callback
(`collect_changes_cb`), the sort (`QSORT` with `file_item_cmp`), and the
presentation layer (`populate_wi_changes`, `print_file_item`, `list`,
`run_status`).

External collaborators (the diff engine, `compute_diffstat`, ref
resolution, the index reader) are modelled at their boundary: a diff batch
is the list of per-file diffstat entries the callback receives, a
repository records whether the index is readable, whether `HEAD` resolves,
and which batches each diff pass emits.
-/

namespace AddInteractive

/-- Byte-wise lexicographic comparison of two character lists, the model of
`strcmp` (UTF-8 byte order and code-point order coincide, and pathnames
contain no NUL). -/
def charsCmp : List Char → List Char → Ordering
  | [], [] => .eq
  | [], _ :: _ => .lt
  | _ :: _, [] => .gt
  | a :: as, b :: bs =>
    if a.toNat < b.toNat then .lt
    else if b.toNat < a.toNat then .gt
    else charsCmp as bs

/-- `strcmp` on pathnames. -/
def strcmp (a b : String) : Ordering := charsCmp a.data b.data

/-- `struct adddel`: one phase's observation of one path. `add`/`del` are
`uintmax_t` line counts (no arithmetic is ever performed on them, only
assignment, so `Nat` is exact). -/
structure adddel where
  add : Nat
  del : Nat
  seen : Bool
  binary : Bool
deriving Repr, DecidableEq, Inhabited

/-- A freshly allocated `adddel` (zero-initialized, as `FLEXPTR_ALLOC_STR`
zeroes the whole `file_item`). -/
def adddel.init : adddel := ⟨0, 0, false, false⟩

/-- `struct file_item`: the merged per-path record. -/
structure file_item where
  name : String
  index : adddel
  worktree : adddel
deriving Repr, DecidableEq, Inhabited

/-- The two diff passes of `collection_status.phase`. -/
inductive Phase
  | FROM_WORKTREE
  | FROM_INDEX
deriving Repr, DecidableEq, Inhabited

/-- One entry of the `diffstat_t` that `compute_diffstat` produces from a
diff queue: pathname, added and deleted line counts, binary flag. -/
structure diffstat_file where
  name : String
  added : Nat
  deleted : Nat
  is_binary : Bool
deriving Repr, DecidableEq, Inhabited

/-- `add_file_item`: append a fresh zero-initialized record carrying `name`
to the file list. -/
def add_file_item (list : List file_item) (name : String) : List file_item :=
  list ++ [{ name := name, index := adddel.init, worktree := adddel.init }]

/-- `reset_file_list`: drop all records (“empties the list logically”). -/
def reset_file_list (_ : List file_item) : List file_item := []

/-- `file_item_cmp`: the `QSORT` comparison, `strcmp` on the names. -/
def file_item_cmp (a b : file_item) : Ordering := strcmp a.name b.name

/-- The non-strict order the sort establishes: `strcmp` did not say the
first argument is greater. -/
def file_item_le (a b : file_item) : Prop := file_item_cmp a b ≠ Ordering.gt

instance : DecidableRel file_item_le := fun a b =>
  inferInstanceAs (Decidable (file_item_cmp a b ≠ Ordering.gt))

/-- `QSORT(list->file, list->nr, file_item_cmp)`: a comparison sort keyed
by `file_item_cmp` (the algorithm is unspecified; with unique keys every
correct comparison sort yields the same output). -/
def sort_by_name (l : List file_item) : List file_item :=
  l.insertionSort file_item_le

/-- The pathname hashmap of `collection_status`, modelled as an association
list from pathname to slot index (`struct pathname_entry`); `hashmap_add`
prepends. -/
abbrev file_map_t := List (String × Nat)

/-- `hashmap_get_from_hash` with `pathname_entry_cmp`: find the entry whose
pathname equals `name` and yield its stored index. -/
def hashmap_get (m : file_map_t) (name : String) : Option Nat :=
  (m.find? (fun e => e.1 == name)).map (·.2)

/-- `struct collection_status`. -/
structure collection_status where
  phase : Phase
  list : List file_item
  file_map : file_map_t
deriving Repr, Inhabited

/-- The per-stat write of `collect_changes_cb`: `seen = 1`, overwrite
`add`/`del`, and `binary |= is_binary` (the `if` keeps an already-true flag). -/
def write_adddel (ad : adddel) (f : diffstat_file) : adddel :=
  { ad with
    seen := true
    add := f.added
    del := f.deleted
    binary := if f.is_binary then true else ad.binary }

/-- `adddel = s->phase == FROM_INDEX ? &file->index : &file->worktree`
followed by the write: update the phase's sub-record only. -/
def update_file (ph : Phase) (file : file_item) (f : diffstat_file) : file_item :=
  match ph with
  | .FROM_INDEX => { file with index := write_adddel file.index f }
  | .FROM_WORKTREE => { file with worktree := write_adddel file.worktree f }

/-- The body of the `for` loop of `collect_changes_cb` for one diffstat
entry: get-or-create the slot for `f.name`, then write this phase's
sub-record of that slot. -/
def collect_one (s : collection_status) (f : diffstat_file) : collection_status :=
  match hashmap_get s.file_map f.name with
  | some file_index =>
    { s with list := s.list.modify (fun file => update_file s.phase file f) file_index }
  | none =>
    let file_index := s.list.length
    let s := { s with
      file_map := (f.name, file_index) :: s.file_map
      list := add_file_item s.list f.name }
    { s with list := s.list.modify (fun file => update_file s.phase file f) file_index }

/-- `collect_changes_cb`: an empty queue returns immediately; otherwise the
diffstat entries of the batch are folded into the state in order. -/
def collect_changes_cb (s : collection_status) (q : List diffstat_file) : collection_status :=
  if q.length = 0 then s
  else q.foldl collect_one s

/-- The boundary state of one run: whether `repo_read_index_preload`
succeeds, what `resolve_ref_unsafe("HEAD", ...)` yields (`none` = unborn),
and the batches each diff pass emits (`run_diff_files` for the worktree
pass; `run_diff_index` as a function of the base revision it is given). -/
structure repository where
  index_readable : Bool
  head_oid : Option String
  worktree_batches : List (List diffstat_file)
  index_batches : String → List (List diffstat_file)

/-- `empty_tree_oid_hex()`: the well-known empty-tree object id. -/
def empty_tree_oid_hex : String := "4b825dc642cb6eb9a060e54bf8d69288fbee4904"

/-- `opt.def = is_initial ? empty_tree_oid_hex() : oid_to_hex(&head_oid)`:
the base revision, the empty-tree sentinel on an unborn branch. -/
def base_ref (r : repository) : String :=
  match r.head_oid with
  | none => empty_tree_oid_hex
  | some oid => oid

/-- One diff pass: the engine invokes the callback once per batch, in
order, while the collector state threads through. -/
def run_phase (s : collection_status) (batches : List (List diffstat_file)) :
    collection_status :=
  batches.foldl collect_changes_cb s

/-- `get_modified_files`: fail if the index cannot be read; otherwise run
the worktree pass, then the index pass against `base_ref`, then sort. -/
def get_modified_files (r : repository) (list : List file_item) :
    Except String (List file_item) :=
  if r.index_readable = false then .error "could not read index"
  else
    let s0 : collection_status := ⟨.FROM_WORKTREE, list, []⟩
    let s1 := run_phase s0 r.worktree_batches
    let s2 := run_phase { s1 with phase := .FROM_INDEX } (r.index_batches (base_ref r))
    .ok (sort_by_name s2.list)

/-- Left-pad with spaces to `width` (`printf` right-justification; every
padded string here is ASCII, so characters are bytes). -/
def pad_left (width : Nat) (s : String) : String :=
  String.mk (List.replicate (width - s.data.length) ' ') ++ s

/-- `populate_wi_changes`: binary wins, then the plus-added slash
minus-deleted column if seen, else the caller's placeholder. -/
def populate_wi_changes (ad : adddel) (no_changes : String) : String :=
  if ad.binary then "binary"
  else if ad.seen then "+" ++ toString ad.add ++ "/-" ++ toString ad.del
  else no_changes

/-- The `modified_fmt` format `"%12s %12s %s"`. -/
def render_modified (index worktree name : String) : String :=
  pad_left 12 index ++ " " ++ pad_left 12 worktree ++ " " ++ name

/-- `print_file_item`: one listing line
`" %2d: <index col> <worktree col> <path>"`, with `i + 1` as the displayed
number, `"unchanged"` as the unseen-index placeholder and `"nothing"` as
the unseen-worktree placeholder. -/
def print_file_item (i : Nat) (c : file_item) : String :=
  " " ++ pad_left 2 (toString (i + 1)) ++ ": " ++
    render_modified (populate_wi_changes c.index "unchanged")
      (populate_wi_changes c.worktree "nothing") c.name

/-- The item-printing loop of `list`: each record prints its line (the
counter starts at 0) followed by the newline `putchar` emits. -/
def list_item_lines : Nat → List file_item → List String
  | _, [] => []
  | i, c :: cs => print_file_item i c :: list_item_lines (i + 1) cs

/-- `list`: nothing at all when the list is empty; otherwise the header
line (when present) then one line per record. -/
def list_lines (l : List file_item) (header : Option String) : List String :=
  if l.length = 0 then []
  else (match header with | some h => [h] | none => []) ++ list_item_lines 0 l

/-- `run_status`: reset the file list, collect; on failure return the error
with nothing printed; on success print the listing (only when non-empty)
and always one trailing blank line, returning the sorted list and the
emitted lines. -/
def run_status (r : repository) (files : List file_item) (header : Option String) :
    Except String (List file_item × List String) :=
  match get_modified_files r (reset_file_list files) with
  | .error e => .error e
  | .ok files =>
    .ok (files, (if files.length ≠ 0 then list_lines files header else []) ++ [""])

/-- The header `run_add_i` builds: six spaces then
`modified_fmt % ("staged", "unstaged", "path")`. -/
def status_header : String := "      " ++ render_modified "staged" "unstaged" "path"

/-- `run_add_i`, reduced to its status-listing behaviour: run the status
with the standard header; `-1` and no output on failure, `0` and the
emitted lines on success. -/
def run_add_i (r : repository) : Int × List String :=
  match run_status r [] (some status_header) with
  | .error _ => (-1, [])
  | .ok (_, out) => (0, out)

/-! ## Proof-support definitions -/

/-- One collection step on the combined two-phase trace: the engine is in
phase `pf.1` when it hands the collector the diffstat entry `pf.2`. -/
def step (s : collection_status) (pf : Phase × diffstat_file) : collection_status :=
  collect_one { s with phase := pf.1 } pf.2

/-- Tag every diffstat entry of a pass with its phase. -/
def tag (p : Phase) (fs : List diffstat_file) : List (Phase × diffstat_file) :=
  fs.map (fun f => (p, f))

/-- All reports a pass delivers, batches flattened in order. -/
def phase_reports (r : repository) : Phase → List diffstat_file
  | .FROM_WORKTREE => r.worktree_batches.flatten
  | .FROM_INDEX => (r.index_batches (base_ref r)).flatten

/-- The full report trace of a run: the worktree pass, then the index
pass. -/
def trace (r : repository) : List (Phase × diffstat_file) :=
  tag .FROM_WORKTREE (phase_reports r .FROM_WORKTREE) ++
    tag .FROM_INDEX (phase_reports r .FROM_INDEX)

/-- Collector state after consuming a trace from the empty state. -/
def trace_run (ps : List (Phase × diffstat_file)) : collection_status :=
  ps.foldl step ⟨.FROM_WORKTREE, [], []⟩

/-- The pathnames of the records, in record order. -/
def names (l : List file_item) : List String := l.map file_item.name

/-- The sub-record a trace leaves for phase `p` and pathname `n`: every
matching report is written over the accumulator in trace order. -/
def acc_stat (p : Phase) (ps : List (Phase × diffstat_file)) (n : String) : adddel :=
  ps.foldl
    (fun ad pf => if pf.1 = p ∧ pf.2.name = n then write_adddel ad pf.2 else ad)
    adddel.init

/-- The record a trace leaves for pathname `n`. -/
def spec_item (ps : List (Phase × diffstat_file)) (n : String) : file_item :=
  { name := n
    index := acc_stat .FROM_INDEX ps n
    worktree := acc_stat .FROM_WORKTREE ps n }

/-- Consistency of the pathname hashmap with the record list: every map
entry points at the record carrying its pathname, every record's pathname
is in the map, and pathnames are unique. -/
def Inv (s : collection_status) : Prop :=
  (∀ e ∈ s.file_map, (names s.list)[e.2]? = some e.1) ∧
  (∀ n ∈ names s.list, (hashmap_get s.file_map n).isSome) ∧
  (names s.list).Nodup

/-! ## Concrete fixtures used to evaluate the definitions -/

/-- A small run: the worktree pass reports `a.txt`, the index pass reports
`b.bin` (binary) and `a.txt` in two batches. -/
def demo_repo : repository :=
  { index_readable := true
    head_oid := some "d00dfeed"
    worktree_batches := [[⟨"a.txt", 3, 1, false⟩]]
    index_batches := fun _ => [[⟨"b.bin", 0, 0, true⟩], [⟨"a.txt", 3, 1, false⟩]] }

/-- The record list `demo_repo` collects, already sorted. -/
def demo_out : List file_item :=
  [{ name := "a.txt", index := ⟨3, 1, true, false⟩, worktree := ⟨3, 1, true, false⟩ },
   { name := "b.bin", index := ⟨0, 0, true, true⟩, worktree := adddel.init }]

/-- The lines the presenter emits for `demo_repo`. -/
def demo_lines : List String :=
  ["            staged     unstaged path",
   "  1:        +3/-1        +3/-1 a.txt",
   "  2:       binary      nothing b.bin", ""]

/-- `demo_repo` with the index pass emitting the same reports as one batch
in the opposite order. -/
def demo_repo_swapped : repository :=
  { demo_repo with
    index_batches := fun _ => [[⟨"a.txt", 3, 1, false⟩, ⟨"b.bin", 0, 0, true⟩]] }

/-- `demo_repo` on an unborn branch. -/
def demo_repo_unborn : repository := { demo_repo with head_oid := none }

/-- `demo_repo` with `HEAD` at the empty-tree sentinel itself. -/
def demo_repo_sentinel : repository :=
  { demo_repo with head_oid := some empty_tree_oid_hex }

/-- A repository whose index cannot be read. -/
def bad_repo : repository :=
  { index_readable := false
    head_oid := none
    worktree_batches := []
    index_batches := fun _ => [] }

/-- A mid-run collector state holding one record. -/
def demo_state : collection_status :=
  { phase := .FROM_WORKTREE
    list := [{ name := "a.txt", index := adddel.init, worktree := ⟨3, 1, true, false⟩ }]
    file_map := [("a.txt", 0)] }

/-- A collector state whose record already has both binary flags set. -/
def demo_state_bin : collection_status :=
  { phase := .FROM_WORKTREE
    list := [{ name := "a.txt", index := ⟨0, 0, true, true⟩, worktree := ⟨1, 2, true, true⟩ }]
    file_map := [("a.txt", 0)] }

/-- Two further non-binary reports for the record of `demo_state_bin`. -/
def demo_steps : List (Phase × diffstat_file) :=
  [(.FROM_WORKTREE, ⟨"a.txt", 9, 9, false⟩), (.FROM_INDEX, ⟨"a.txt", 4, 4, false⟩)]

/-!  ## Order properties of `strcmp` -/

theorem charsCmp_nil_left_ne_gt (b : List Char) : charsCmp [] b ≠ .gt := by
  cases b <;> simp [charsCmp]

theorem charsCmp_self (a : List Char) : charsCmp a a = .eq := by
  induction a with
  | nil => rfl
  | cons x xs ih => simp [charsCmp, ih]

theorem charsCmp_eq_iff {a b : List Char} : charsCmp a b = .eq ↔ a = b := by
  constructor
  · intro h
    induction a generalizing b with
    | nil => cases b with
      | nil => rfl
      | cons y ys => simp [charsCmp] at h
    | cons x xs ih =>
      cases b with
      | nil => simp [charsCmp] at h
      | cons y ys =>
        simp only [charsCmp] at h
        rcases Nat.lt_trichotomy x.toNat y.toNat with h1 | h1 | h1
        · simp [h1] at h
        · have hxy : x = y := Char.eq_of_val_eq (UInt32.ext h1)
          simp only [h1, Nat.lt_irrefl, if_false] at h
          rw [hxy, ih h]
        · simp [Nat.lt_asymm h1, h1] at h
  · rintro rfl
    exact charsCmp_self a

theorem charsCmp_le_trans {a b c : List Char}
    (hab : charsCmp a b ≠ .gt) (hbc : charsCmp b c ≠ .gt) : charsCmp a c ≠ .gt := by
  induction a generalizing b c with
  | nil => exact charsCmp_nil_left_ne_gt c
  | cons x xs ih =>
    match b, c with
    | [], _ => simp [charsCmp] at hab
    | _ :: _, [] => simp [charsCmp] at hbc
    | y :: ys, z :: zs =>
      simp only [charsCmp] at hab hbc ⊢
      rcases Nat.lt_trichotomy x.toNat y.toNat with h1 | h1 | h1 <;>
        rcases Nat.lt_trichotomy y.toNat z.toNat with h2 | h2 | h2
      · simp [h1.trans h2]
      · simp [h2 ▸ h1]
      · simp [Nat.lt_asymm h2, h2] at hbc
      · simp [h1 ▸ h2]
      · have h13 : x.toNat = z.toNat := h1.trans h2
        simp only [h1, Nat.lt_irrefl, if_false] at hab
        simp only [h2, Nat.lt_irrefl, if_false] at hbc
        simp only [h13, Nat.lt_irrefl, if_false]
        exact ih hab hbc
      · simp [Nat.lt_asymm h2, h2] at hbc
      · simp [Nat.lt_asymm h1, h1] at hab
      · simp [Nat.lt_asymm h1, h1] at hab
      · simp [Nat.lt_asymm h1, h1] at hab

theorem charsCmp_swap (a b : List Char) : charsCmp b a = (charsCmp a b).swap := by
  induction a generalizing b with
  | nil => cases b <;> simp [charsCmp, Ordering.swap]
  | cons x xs ih =>
    cases b with
    | nil => simp [charsCmp, Ordering.swap]
    | cons y ys =>
      simp only [charsCmp]
      rcases Nat.lt_trichotomy x.toNat y.toNat with h1 | h1 | h1
      · simp [h1, Nat.lt_asymm h1, Ordering.swap]
      · simp [h1, Nat.lt_irrefl, ih]
      · simp [h1, Nat.lt_asymm h1, Ordering.swap]

theorem charsCmp_le_total (a b : List Char) :
    charsCmp a b ≠ .gt ∨ charsCmp b a ≠ .gt := by
  rcases h : charsCmp a b with _ | _ | _
  · left; simp [h]
  · left; simp [h]
  · right; rw [charsCmp_swap]; simp [h, Ordering.swap]

theorem strcmp_eq_iff {a b : String} : strcmp a b = .eq ↔ a = b := by
  unfold strcmp
  rw [charsCmp_eq_iff]
  exact ⟨fun h => String.ext h, fun h => h ▸ rfl⟩

instance : IsTotal file_item file_item_le :=
  ⟨fun a b => charsCmp_le_total a.name.data b.name.data⟩

instance : IsTrans file_item file_item_le :=
  ⟨fun _ _ _ hab hbc => charsCmp_le_trans hab hbc⟩

/-- The strict name order the sorted list satisfies. -/
def file_item_lt (a b : file_item) : Prop := strcmp a.name b.name = .lt

instance : IsAntisymm file_item file_item_lt :=
  ⟨fun a b hab hba => by
    unfold file_item_lt strcmp at hab hba
    rw [charsCmp_swap, hab] at hba
    simp [Ordering.swap] at hba⟩

theorem file_item_le_of_lt {a b : file_item} (h : file_item_lt a b) :
    file_item_le a b := by
  unfold file_item_lt at h
  unfold file_item_le file_item_cmp
  simp [h]

theorem file_item_lt_of_le_of_ne {a b : file_item} (hle : file_item_le a b)
    (hne : a.name ≠ b.name) : file_item_lt a b := by
  unfold file_item_le file_item_cmp at hle
  unfold file_item_lt
  rcases h : strcmp a.name b.name with _ | _ | _
  · rfl
  · exact absurd (strcmp_eq_iff.mp h) hne
  · exact absurd h hle

/-! ## Basic facts about the collector -/

theorem hashmap_get_cons (m : String) (i : Nat) (rest : file_map_t) (n : String) :
    hashmap_get ((m, i) :: rest) n = if m == n then some i else hashmap_get rest n := by
  rcases h : (m == n) with _ | _
  · simp only [hashmap_get, List.find?_cons, h, Bool.false_eq_true, if_false]
  · simp only [hashmap_get, List.find?_cons, h, if_true]
    rfl

theorem hashmap_get_mem {m : file_map_t} {n : String} {i : Nat}
    (h : hashmap_get m n = some i) : ∃ e ∈ m, e.1 = n ∧ e.2 = i := by
  unfold hashmap_get at h
  rcases hf : m.find? (fun e => e.1 == n) with _ | e
  · rw [hf] at h; simp at h
  · rw [hf] at h
    have hp := List.find?_some hf
    exact ⟨e, List.mem_of_find?_eq_some hf, by simpa using hp, by simpa using h⟩

theorem update_file_name (p : Phase) (it : file_item) (f : diffstat_file) :
    (update_file p it f).name = it.name := by
  cases p <;> rfl

theorem collect_one_hit {s : collection_status} {f : diffstat_file} {i : Nat}
    (h : hashmap_get s.file_map f.name = some i) :
    collect_one s f =
      { s with list := List.modify (fun file => update_file s.phase file f) i s.list } := by
  unfold collect_one
  rw [h]

theorem collect_one_miss {s : collection_status} {f : diffstat_file}
    (h : hashmap_get s.file_map f.name = none) :
    collect_one s f =
      { s with
        file_map := (f.name, s.list.length) :: s.file_map
        list := List.modify (fun file => update_file s.phase file f) s.list.length
          (add_file_item s.list f.name) } := by
  unfold collect_one
  rw [h]

theorem modify_append_length {α : Type} (l : List α) (a : α) (g : α → α) :
    List.modify g l.length (l ++ [a]) = l ++ [g a] := by
  apply List.ext_getElem (by simp [List.length_modify])
  intro j h1 h2
  rw [List.getElem_modify]
  rcases Nat.lt_trichotomy j l.length with hj | hj | hj
  · rw [if_neg (by omega), List.getElem_append_left hj, List.getElem_append_left hj]
  · rw [if_pos hj.symm]
    rw [List.getElem_concat_length l a j hj, List.getElem_concat_length l (g a) j hj]
  · exfalso
    simp [List.length_modify] at h1
    omega

theorem names_length (l : List file_item) : (names l).length = l.length := by
  simp [names]

theorem names_getElem (l : List file_item) (j : Nat) (h : j < l.length)
    (h2 : j < (names l).length) : (names l)[j] = (l[j]).name := by
  simp [names]

theorem names_append (l : List file_item) (it : file_item) :
    names (l ++ [it]) = names l ++ [it.name] := by
  simp [names]

theorem names_modify (l : List file_item) (i : Nat) (p : Phase) (f : diffstat_file) :
    names (List.modify (fun file => update_file p file f) i l) = names l := by
  apply List.ext_getElem (by simp [names_length, List.length_modify])
  intro j h1 h2
  simp only [names, List.getElem_map, List.getElem_modify]
  split
  · rw [update_file_name]
  · rfl

theorem collect_changes_cb_foldl (s : collection_status) (q : List diffstat_file) :
    collect_changes_cb s q = q.foldl collect_one s := by
  cases q with
  | nil => rfl
  | cons f fs => simp [collect_changes_cb]

theorem run_phase_flatten (s : collection_status) (batches : List (List diffstat_file)) :
    run_phase s batches = batches.flatten.foldl collect_one s := by
  have h : collect_changes_cb = fun s l => List.foldl collect_one s l :=
    funext fun s => funext fun q => collect_changes_cb_foldl s q
  rw [run_phase, h, List.foldl_flatten]

theorem collect_one_phase (s : collection_status) (f : diffstat_file) :
    (collect_one s f).phase = s.phase := by
  rcases h : hashmap_get s.file_map f.name with _ | i
  · rw [collect_one_miss h]
  · rw [collect_one_hit h]

theorem step_set_phase (s : collection_status) (p' : Phase) (pf : Phase × diffstat_file) :
    step { s with phase := p' } pf = step s pf := by
  cases s
  rfl

theorem foldl_step_set_phase_list (s : collection_status) (p' : Phase)
    (ps : List (Phase × diffstat_file)) :
    (List.foldl step { s with phase := p' } ps).list = (List.foldl step s ps).list := by
  cases ps with
  | nil => rfl
  | cons pf ps => rw [List.foldl_cons, List.foldl_cons, step_set_phase]

theorem foldl_collect_one_tag (p : Phase) (fs : List diffstat_file) :
    ∀ s : collection_status, s.phase = p →
      fs.foldl collect_one s = (tag p fs).foldl step s := by
  induction fs with
  | nil => intro s _; rfl
  | cons f fs ih =>
    intro s hs
    rw [tag, List.map_cons, List.foldl_cons, List.foldl_cons]
    have h1 : step s (p, f) = collect_one s f := by
      rcases s with ⟨p0, l, m⟩
      cases hs
      rfl
    rw [h1, ← tag]
    exact ih (collect_one s f) ((collect_one_phase s f).trans hs)

theorem get_modified_files_eq_trace (r : repository) (h : r.index_readable = true) :
    get_modified_files r [] = .ok (sort_by_name (trace_run (trace r)).list) := by
  have hcond : ¬ (r.index_readable = false) := by simp [h]
  have e1 : run_phase ⟨.FROM_WORKTREE, [], []⟩ r.worktree_batches =
      (tag .FROM_WORKTREE (phase_reports r .FROM_WORKTREE)).foldl step
        ⟨.FROM_WORKTREE, [], []⟩ := by
    rw [run_phase_flatten]
    exact foldl_collect_one_tag _ _ _ rfl
  show (if r.index_readable = false then Except.error "could not read index"
    else Except.ok (sort_by_name
      ((run_phase
        { run_phase ⟨Phase.FROM_WORKTREE, [], []⟩ r.worktree_batches with
          phase := Phase.FROM_INDEX }
        (r.index_batches (base_ref r))).list))) = _
  rw [if_neg hcond]
  congr 1
  have e2 : run_phase
      { run_phase ⟨Phase.FROM_WORKTREE, [], []⟩ r.worktree_batches with
        phase := Phase.FROM_INDEX } (r.index_batches (base_ref r)) =
      (tag .FROM_INDEX (phase_reports r .FROM_INDEX)).foldl step
        { run_phase ⟨Phase.FROM_WORKTREE, [], []⟩ r.worktree_batches with
          phase := Phase.FROM_INDEX } := by
    rw [run_phase_flatten]
    exact foldl_collect_one_tag _ _ _ rfl
  rw [e2, foldl_step_set_phase_list, e1]
  rw [trace_run, trace, List.foldl_append]

/-! ## Characterization of the collector state after a trace -/

theorem acc_stat_append (q : Phase) (ps : List (Phase × diffstat_file))
    (pf : Phase × diffstat_file) (n : String) :
    acc_stat q (ps ++ [pf]) n =
      if pf.1 = q ∧ pf.2.name = n then write_adddel (acc_stat q ps n) pf.2
      else acc_stat q ps n := by
  unfold acc_stat
  rw [List.foldl_append]
  rfl

theorem foldl_acc_no_match (q : Phase) (n : String) (ps : List (Phase × diffstat_file))
    (ad : adddel) (h : ∀ pf ∈ ps, pf.2.name ≠ n) :
    ps.foldl
      (fun ad pf => if pf.1 = q ∧ pf.2.name = n then write_adddel ad pf.2 else ad) ad
      = ad := by
  induction ps generalizing ad with
  | nil => rfl
  | cons pf ps ih =>
    rw [List.foldl_cons, if_neg (fun hc => h pf (List.mem_cons_self _ _) hc.2)]
    exact ih ad (fun x hx => h x (List.mem_cons_of_mem _ hx))

theorem acc_stat_of_not_mem {q : Phase} {n : String} {ps : List (Phase × diffstat_file)}
    (h : n ∉ ps.map (fun pf => pf.2.name)) : acc_stat q ps n = adddel.init := by
  apply foldl_acc_no_match
  intro pf hpf he
  exact h (List.mem_map.mpr ⟨pf, hpf, he⟩)

theorem spec_item_of_not_mem {n : String} {ps : List (Phase × diffstat_file)}
    (h : n ∉ ps.map (fun pf => pf.2.name)) :
    spec_item ps n = { name := n, index := adddel.init, worktree := adddel.init } := by
  unfold spec_item
  rw [acc_stat_of_not_mem h, acc_stat_of_not_mem h]

theorem spec_item_append_other {ps : List (Phase × diffstat_file)}
    {pf : Phase × diffstat_file} {n : String} (h : pf.2.name ≠ n) :
    spec_item (ps ++ [pf]) n = spec_item ps n := by
  unfold spec_item
  rw [acc_stat_append, acc_stat_append, if_neg (fun hc => h hc.2),
    if_neg (fun hc => h hc.2)]

theorem spec_item_append_self (ps : List (Phase × diffstat_file))
    (pf : Phase × diffstat_file) :
    spec_item (ps ++ [pf]) pf.2.name =
      update_file pf.1 (spec_item ps pf.2.name) pf.2 := by
  rcases hp : pf.1 with _ | _ <;>
    simp [spec_item, acc_stat_append, update_file, hp]

theorem trace_run_char (ps : List (Phase × diffstat_file)) :
    Inv (trace_run ps) ∧
    (∀ n, n ∈ names (trace_run ps).list ↔ n ∈ ps.map (fun pf => pf.2.name)) ∧
    (∀ j (hj : j < (trace_run ps).list.length),
      (trace_run ps).list[j] = spec_item ps (((trace_run ps).list[j]).name)) := by
  induction ps using List.reverseRecOn with
  | nil =>
    refine ⟨⟨?_, ?_, ?_⟩, ?_, ?_⟩ <;> simp [trace_run, Inv, names]
  | append_singleton ps pf ih =>
    obtain ⟨⟨invA, invB, invC⟩, memb, char⟩ := ih
    have hstep : trace_run (ps ++ [pf]) = step (trace_run ps) pf := by
      rw [trace_run, trace_run, List.foldl_append, List.foldl_cons, List.foldl_nil]
    set s := trace_run ps with hs
    rcases hget : hashmap_get s.file_map pf.2.name with _ | i
    -- miss: a fresh record is appended and the map gains an entry
    · have hnot : pf.2.name ∉ names s.list := fun hmem => by
        have := invB _ hmem
        rw [hget] at this
        simp at this
      have hnotps : pf.2.name ∉ ps.map (fun pf => pf.2.name) :=
        fun hmem => hnot ((memb _).mpr hmem)
      have hlist : (trace_run (ps ++ [pf])).list =
          s.list ++ [update_file pf.1
            { name := pf.2.name, index := adddel.init, worktree := adddel.init } pf.2] := by
        rw [hstep, step, collect_one_miss (by exact hget)]
        show List.modify _ s.list.length (add_file_item s.list pf.2.name) = _
        rw [add_file_item, modify_append_length]
      have hmap : (trace_run (ps ++ [pf])).file_map =
          (pf.2.name, s.list.length) :: s.file_map := by
        rw [hstep, step, collect_one_miss (by exact hget)]
      have hnames : names (trace_run (ps ++ [pf])).list =
          names s.list ++ [pf.2.name] := by
        rw [hlist, names_append, update_file_name]
      refine ⟨⟨?_, ?_, ?_⟩, ?_, ?_⟩
      · intro e he
        rw [hmap] at he
        rcases List.mem_cons.mp he with rfl | he
        · rw [hnames]
          have : (names s.list).length = s.list.length := names_length s.list
          rw [← this]
          exact List.getElem?_concat_length _ _
        · have := invA e he
          rw [hnames, List.getElem?_append]
          have hlt : e.2 < (names s.list).length := (List.getElem?_eq_some.mp this).1
          rw [if_pos hlt]
          exact this
      · intro n hn
        rw [hnames] at hn
        rw [hmap, hashmap_get_cons]
        rcases List.mem_append.mp hn with hn | hn
        · rcases hbe : (pf.2.name == n) with _ | _
          · simpa [hbe] using invB n hn
          · simp [hbe]
        · have hne : n = pf.2.name := by simpa using hn
          simp [hne]
      · rw [hnames, List.nodup_append]
        exact ⟨invC, List.nodup_singleton _,
          fun n hn hn' => hnot ((by simpa using hn' : n = pf.2.name) ▸ hn)⟩
      · intro n
        rw [hnames, List.map_append, List.mem_append, List.mem_append]
        constructor
        · rintro (hn | hn)
          · exact Or.inl ((memb n).mp hn)
          · exact Or.inr (by simpa using hn)
        · rintro (hn | hn)
          · exact Or.inl ((memb n).mpr hn)
          · exact Or.inr (by simpa using hn)
      · intro j hj
        have hv := List.getElem_of_eq hlist hj
        rw [hv]
        have hj' : j < s.list.length + 1 := by
          have := hj
          rw [hlist] at this
          simpa using this
        rcases Nat.lt_succ_iff_lt_or_eq.mp hj' with hj2 | hj2
        · rw [List.getElem_append_left hj2]
          have hname_mem : (s.list[j]).name ∈ names s.list := by
            rw [names]
            exact List.mem_map.mpr ⟨s.list[j], List.getElem_mem _, rfl⟩
          have hne : pf.2.name ≠ (s.list[j]).name := fun he => hnot (he ▸ hname_mem)
          rw [spec_item_append_other hne]
          exact char j hj2
        · rw [List.getElem_concat_length _ _ _ hj2]
          rw [update_file_name, spec_item_append_self, spec_item_of_not_mem hnotps]
    -- hit: the existing record is updated in place
    · obtain ⟨e, he, he1, he2⟩ := hashmap_get_mem hget
      have hieq := invA e he
      rw [he1, he2] at hieq
      have hilt : i < (names s.list).length := (List.getElem?_eq_some.mp hieq).1
      have hilt' : i < s.list.length := by simpa [names_length] using hilt
      have hiname : (s.list[i]).name = pf.2.name := by
        have := (List.getElem?_eq_some.mp hieq).2
        rw [← names_getElem s.list i hilt' hilt]
        exact this
      have hlist : (trace_run (ps ++ [pf])).list =
          List.modify (fun file => update_file pf.1 file pf.2) i s.list := by
        rw [hstep, step, collect_one_hit (by exact hget)]
      have hmap : (trace_run (ps ++ [pf])).file_map = s.file_map := by
        rw [hstep, step, collect_one_hit (by exact hget)]
      have hnames : names (trace_run (ps ++ [pf])).list = names s.list := by
        rw [hlist, names_modify]
      refine ⟨⟨?_, ?_, ?_⟩, ?_, ?_⟩
      · intro e' he'
        rw [hmap] at he'
        rw [hnames]
        exact invA e' he'
      · intro n hn
        rw [hnames] at hn
        rw [hmap]
        exact invB n hn
      · rw [hnames]; exact invC
      · intro n
        rw [hnames, List.map_append, List.mem_append]
        constructor
        · intro hn
          exact Or.inl ((memb n).mp hn)
        · rintro (hn | hn)
          · exact (memb n).mpr hn
          · have hne : n = pf.2.name := by simpa using hn
            rw [hne, ← hiname]
            rw [names]
            exact List.mem_map.mpr ⟨s.list[i], List.getElem_mem _, rfl⟩
      · intro j hj
        have hv := List.getElem_of_eq hlist hj
        rw [hv]
        have hj' : j < s.list.length := by
          have := hj
          rw [hlist] at this
          simpa [List.length_modify] using this
        rw [List.getElem_modify]
        rcases eq_or_ne i j with rfl | hne
        · rw [if_pos rfl, update_file_name, hiname, spec_item_append_self]
          have hchar := char i hj'
          rw [hiname] at hchar
          rw [hchar]
        · rw [if_neg hne]
          have hnej : pf.2.name ≠ (s.list[j]).name := by
            intro he
            have hjn : j < (names s.list).length := by
              simpa [names_length] using hj'
            have h1 : (names s.list)[i] = (names s.list)[j] := by
              rw [names_getElem s.list i hilt' hilt, names_getElem s.list j hj' hjn,
                hiname, he]
            exact hne (invC.getElem_inj_iff.mp h1)
          rw [spec_item_append_other hnej]
          exact char j hj'

/-! ## Consequences for the returned record list -/

theorem collect_ok_readable {r : repository} {l out : List file_item}
    (h : get_modified_files r l = .ok out) : r.index_readable = true := by
  rcases hb : r.index_readable with _ | _
  · rw [get_modified_files] at h
    rw [if_pos hb] at h
    exact absurd h (by simp)
  · rfl

theorem collect_out_eq {r : repository} {out : List file_item}
    (h : get_modified_files r [] = .ok out) :
    out = sort_by_name (trace_run (trace r)).list := by
  have he := get_modified_files_eq_trace r (collect_ok_readable h)
  rw [h] at he
  exact Except.ok.inj he

theorem collect_out_perm {r : repository} {out : List file_item}
    (h : get_modified_files r [] = .ok out) :
    out.Perm (trace_run (trace r)).list := by
  rw [collect_out_eq h]
  exact List.perm_insertionSort _ _

theorem collect_out_names_nodup {r : repository} {out : List file_item}
    (h : get_modified_files r [] = .ok out) : (names out).Nodup := by
  have hperm := (collect_out_perm h).map file_item.name
  have hnodup := (trace_run_char (trace r)).1.2.2
  exact hperm.symm.nodup hnodup

theorem sorted_pairwise_lt {l : List file_item}
    (hsorted : List.Sorted file_item_le l) (hnodup : (names l).Nodup) :
    List.Pairwise file_item_lt l := by
  have hne : List.Pairwise (fun a b : file_item => a.name ≠ b.name) l := by
    rw [names] at hnodup
    exact List.pairwise_map.mp hnodup
  exact (hsorted.and hne).imp (fun hab => file_item_lt_of_le_of_ne hab.1 hab.2)

theorem collect_out_pairwise_lt {r : repository} {out : List file_item}
    (h : get_modified_files r [] = .ok out) :
    List.Pairwise file_item_lt out := by
  apply sorted_pairwise_lt _ (collect_out_names_nodup h)
  rw [collect_out_eq h]
  exact List.sorted_insertionSort file_item_le _

/-! ## The sub-record left for a name, as a function of the per-phase reports -/

theorem foldl_acc_filter (q : Phase) (n : String) :
    ∀ (ps : List (Phase × diffstat_file)) (ad : adddel),
    ps.foldl
      (fun ad pf => if pf.1 = q ∧ pf.2.name = n then write_adddel ad pf.2 else ad) ad =
    (ps.filter (fun pf => decide (pf.1 = q ∧ pf.2.name = n))).foldl
      (fun ad pf => write_adddel ad pf.2) ad := by
  intro ps
  induction ps with
  | nil => intro ad; rfl
  | cons pf ps ih =>
    intro ad
    by_cases hc : pf.1 = q ∧ pf.2.name = n
    · rw [List.foldl_cons, if_pos hc, List.filter_cons_of_pos (by simpa using hc),
        List.foldl_cons]
      exact ih _
    · rw [List.foldl_cons, if_neg hc, List.filter_cons_of_neg (by simpa using hc)]
      exact ih _

theorem filter_tag_eq (q p : Phase) (fs : List diffstat_file) (n : String) :
    (tag p fs).filter (fun pf => decide (pf.1 = q ∧ pf.2.name = n)) =
      if p = q then tag p (fs.filter (fun f => f.name == n)) else [] := by
  by_cases hpq : p = q
  · subst hpq
    rw [if_pos rfl]
    induction fs with
    | nil => rfl
    | cons f fs ih =>
      by_cases hn : f.name = n
      · rw [tag, List.map_cons, List.filter_cons_of_pos (by simp [hn]), ← tag, ih]
        rw [List.filter_cons_of_pos (by simp [hn])]
        simp [tag]
      · rw [tag, List.map_cons, List.filter_cons_of_neg (by simp [hn]), ← tag, ih]
        rw [List.filter_cons_of_neg (by simp [hn])]
  · rw [if_neg hpq]
    apply List.filter_eq_nil_iff.mpr
    intro a ha
    obtain ⟨f, _, rfl⟩ := List.mem_map.mp ha
    simp [hpq]

theorem acc_stat_trace (r : repository) (q : Phase) (n : String) :
    acc_stat q (trace r) n =
      (tag q ((phase_reports r q).filter (fun f => f.name == n))).foldl
        (fun ad pf => write_adddel ad pf.2) adddel.init := by
  rw [acc_stat, foldl_acc_filter, trace, List.filter_append,
    filter_tag_eq q .FROM_WORKTREE, filter_tag_eq q .FROM_INDEX]
  rcases q with _ | _
  · rw [if_pos rfl, if_neg (by simp), List.append_nil]
  · rw [if_neg (by simp), if_pos rfl, List.nil_append]

theorem acc_stat_init_of_not_reported (r : repository) (q : Phase) (n : String)
    (h : n ∉ (phase_reports r q).map diffstat_file.name) :
    acc_stat q (trace r) n = adddel.init := by
  rw [acc_stat_trace]
  have hnil : (phase_reports r q).filter (fun f => f.name == n) = [] := by
    apply List.filter_eq_nil_iff.mpr
    intro f hf
    simp only [beq_iff_eq]
    exact fun he => h (List.mem_map.mpr ⟨f, hf, he⟩)
  rw [hnil]
  rfl

theorem filter_name_length_le_one {fs : List diffstat_file}
    (h : (fs.map diffstat_file.name).Nodup) (n : String) :
    (fs.filter (fun f => f.name == n)).length ≤ 1 := by
  induction fs with
  | nil => simp
  | cons f fs ih =>
    rw [List.map_cons, List.nodup_cons] at h
    by_cases hn : f.name = n
    · rw [List.filter_cons_of_pos (by simp [hn])]
      have hnil : fs.filter (fun f => f.name == n) = [] := by
        apply List.filter_eq_nil_iff.mpr
        intro g hg
        simp only [beq_iff_eq]
        exact fun he => h.1 (List.mem_map.mpr ⟨g, hg, he.trans hn.symm⟩)
      rw [hnil]
      exact Nat.le_refl 1
    · rw [List.filter_cons_of_neg (by simp [hn])]
      exact ih h.2

theorem perm_eq_of_length_le_one {α : Type} {l1 l2 : List α}
    (h : l1.Perm l2) (hl : l1.length ≤ 1) : l1 = l2 := by
  match l1, hl with
  | [], _ => exact (h.symm.eq_nil).symm
  | [a], _ => exact List.singleton_perm.mp h

theorem acc_stat_trace_congr (r1 r2 : repository) (q : Phase) (n : String)
    (hperm : (phase_reports r1 q).Perm (phase_reports r2 q))
    (hnodup : ((phase_reports r1 q).map diffstat_file.name).Nodup) :
    acc_stat q (trace r1) n = acc_stat q (trace r2) n := by
  rw [acc_stat_trace, acc_stat_trace,
    perm_eq_of_length_le_one (hperm.filter _) (filter_name_length_le_one hnodup n)]

theorem trace_names_eq (r : repository) :
    (trace r).map (fun pf => pf.2.name) =
      (phase_reports r .FROM_WORKTREE).map diffstat_file.name ++
        (phase_reports r .FROM_INDEX).map diffstat_file.name := by
  rw [trace, List.map_append]
  congr 1 <;> · rw [tag, List.map_map]; rfl

/-! ## Frame lemmas for a single collection step -/

theorem collect_one_list_shape (s : collection_status) (f : diffstat_file) :
    (∃ i, hashmap_get s.file_map f.name = some i ∧
      (collect_one s f).list =
        List.modify (fun file => update_file s.phase file f) i s.list) ∨
    (hashmap_get s.file_map f.name = none ∧
      (collect_one s f).list =
        s.list ++ [update_file s.phase
          { name := f.name, index := adddel.init, worktree := adddel.init } f]) := by
  rcases hg : hashmap_get s.file_map f.name with _ | i
  · right
    refine ⟨rfl, ?_⟩
    rw [collect_one_miss hg]
    show List.modify _ s.list.length (add_file_item s.list f.name) = _
    rw [add_file_item, modify_append_length]
  · left
    exact ⟨i, rfl, by rw [collect_one_hit hg]⟩

theorem collect_one_getElem_cases (s : collection_status) (f : diffstat_file)
    (j : Nat) (h : j < s.list.length) :
    ∃ h' : j < (collect_one s f).list.length,
      (collect_one s f).list[j] = s.list[j] ∨
      (collect_one s f).list[j] = update_file s.phase (s.list[j]) f := by
  rcases collect_one_list_shape s f with ⟨i, _, hlist⟩ | ⟨_, hlist⟩
  · have h' : j < (collect_one s f).list.length := by
      rw [hlist, List.length_modify]
      exact h
    refine ⟨h', ?_⟩
    rw [List.getElem_of_eq hlist h', List.getElem_modify]
    rcases eq_or_ne i j with rfl | hne
    · rw [if_pos rfl]
      right
      rfl
    · rw [if_neg hne]
      left
      rfl
  · have h' : j < (collect_one s f).list.length := by
      rw [hlist, List.length_append]
      omega
    refine ⟨h', ?_⟩
    rw [List.getElem_of_eq hlist h', List.getElem_append_left h]
    left
    rfl

theorem write_adddel_binary_true {ad : adddel} (f : diffstat_file)
    (h : ad.binary = true) : (write_adddel ad f).binary = true := by
  rcases hb : f.is_binary with _ | _ <;> simp [write_adddel, hb, h]

theorem update_file_binary_sticky (p : Phase) (it : file_item) (f : diffstat_file) :
    (it.index.binary = true → (update_file p it f).index.binary = true) ∧
    (it.worktree.binary = true → (update_file p it f).worktree.binary = true) := by
  rcases p with _ | _
  · exact ⟨fun h => h, fun h => write_adddel_binary_true f h⟩
  · exact ⟨fun h => write_adddel_binary_true f h, fun h => h⟩

theorem collect_one_getElem_binary_sticky (s : collection_status) (f : diffstat_file)
    (j : Nat) (h : j < s.list.length) :
    ∃ h' : j < (collect_one s f).list.length,
      ((s.list[j]).index.binary = true → ((collect_one s f).list[j]).index.binary = true) ∧
      ((s.list[j]).worktree.binary = true →
        ((collect_one s f).list[j]).worktree.binary = true) := by
  obtain ⟨h', hc⟩ := collect_one_getElem_cases s f j h
  refine ⟨h', ?_⟩
  rcases hc with hc | hc <;> rw [hc]
  · exact ⟨fun h => h, fun h => h⟩
  · exact update_file_binary_sticky s.phase _ f

theorem foldl_step_binary_sticky (ps : List (Phase × diffstat_file)) :
    ∀ (s : collection_status) (j : Nat) (h : j < s.list.length),
    ∃ h' : j < (ps.foldl step s).list.length,
      ((s.list[j]).index.binary = true → ((ps.foldl step s).list[j]).index.binary = true) ∧
      ((s.list[j]).worktree.binary = true →
        ((ps.foldl step s).list[j]).worktree.binary = true) := by
  induction ps with
  | nil => exact fun s j h => ⟨h, fun h1 => h1, fun h2 => h2⟩
  | cons pf ps ih =>
    intro s j h
    obtain ⟨h1, hs1, hs2⟩ :=
      collect_one_getElem_binary_sticky { s with phase := pf.1 } pf.2 j h
    obtain ⟨h2, hf1, hf2⟩ := ih (step s pf) j h1
    rw [List.foldl_cons]
    exact ⟨h2, fun hb => hf1 (hs1 hb), fun hb => hf2 (hs2 hb)⟩

theorem update_file_worktree_frame (it : file_item) (f : diffstat_file) :
    (update_file .FROM_WORKTREE it f).index = it.index := rfl

theorem update_file_index_frame (it : file_item) (f : diffstat_file) :
    (update_file .FROM_INDEX it f).worktree = it.worktree := rfl

/-! ## Presenter lemmas -/

theorem list_item_lines_length (l : List file_item) :
    ∀ k, (list_item_lines k l).length = l.length := by
  induction l with
  | nil => intro k; rfl
  | cons c cs ih => intro k; simp [list_item_lines, ih]

theorem list_item_lines_getElem? (l : List file_item) :
    ∀ (k j : Nat),
      (list_item_lines k l)[j]? = (l[j]?).map (fun c => print_file_item (k + j) c) := by
  induction l with
  | nil => intro k j; simp [list_item_lines]
  | cons c cs ih =>
    intro k j
    cases j with
    | zero => simp [list_item_lines]
    | succ j =>
      have harith : k + 1 + j = k + (j + 1) := by omega
      simp only [list_item_lines, List.getElem?_cons_succ, ih (k + 1) j, harith]

theorem run_status_ok {r : repository} {files sorted : List file_item}
    {hdr : Option String} {out : List String}
    (h : run_status r files hdr = .ok (sorted, out)) :
    get_modified_files r [] = .ok sorted ∧
    out = (if sorted.length ≠ 0 then list_lines sorted hdr else []) ++ [""] := by
  unfold run_status at h
  rw [show reset_file_list files = [] from rfl] at h
  rcases hg : get_modified_files r [] with e | l
  · rw [hg] at h
    exact absurd h (by simp)
  · rw [hg] at h
    have hp : (l, (if l.length ≠ 0 then list_lines l hdr else []) ++ [""]) =
        (sorted, out) := by
      simpa using h
    obtain ⟨h1, h2⟩ := Prod.mk.inj hp
    subst h1
    exact ⟨rfl, h2.symm⟩

theorem collect_mem_spec {r : repository} {out : List file_item} {it : file_item}
    (h : get_modified_files r [] = .ok out) (hit : it ∈ out) :
    it = spec_item (trace r) it.name := by
  have hmem : it ∈ (trace_run (trace r)).list := ((collect_out_perm h).mem_iff).mp hit
  obtain ⟨j, hj, hje⟩ := List.mem_iff_getElem.mp hmem
  have hc := (trace_run_char (trace r)).2.2 j hj
  rw [hje] at hc
  exact hc

/-! ## The claims -/

/-- C10: a diff callback invoked with an empty batch (zero queued entries)
returns immediately and leaves the collector state — record list, pathname
registry, and every record's sub-records — unchanged. -/
theorem empty_batch_noop (s : collection_status) (q : List diffstat_file)
    (h : q.length = 0) : collect_changes_cb s q = s := by
  rw [collect_changes_cb, if_pos h]

theorem empty_batch_noop_witness :
    collect_changes_cb demo_state [] = demo_state :=
  empty_batch_noop demo_state [] rfl

/-- C6: when the index cannot be read, collection fails with the index-read
error before either diff phase runs: no record list is returned, the status
run propagates the error printing nothing, and the whole run reports `-1`
with no output lines. -/
theorem index_read_failure_aborts (r : repository) (files l : List file_item)
    (hdr : Option String) (h : r.index_readable = false) :
    get_modified_files r l = .error "could not read index" ∧
    run_status r files hdr = .error "could not read index" ∧
    run_add_i r = (-1, []) := by
  have h1 : ∀ l' : List file_item,
      get_modified_files r l' = .error "could not read index" := by
    intro l'
    rw [get_modified_files, if_pos h]
  have h2 : ∀ (fs : List file_item) (hd : Option String),
      run_status r fs hd = .error "could not read index" := by
    intro fs hd
    unfold run_status
    rw [show reset_file_list fs = ([] : List file_item) from rfl, h1 []]
  refine ⟨h1 l, h2 files hdr, ?_⟩
  unfold run_add_i
  rw [h2 [] (some status_header)]

theorem index_read_failure_aborts_witness :
    get_modified_files bad_repo [] = .error "could not read index" ∧
    run_add_i bad_repo = (-1, []) := by
  have t := index_read_failure_aborts bad_repo [] [] none rfl
  exact ⟨t.1, t.2.2⟩

/-- C7: the rendered column for a phase's sub-record is `"binary"` when the
binary flag is set, else the plus-added slash minus-deleted pair when the
seen flag is set, else the caller's placeholder; and the per-record printer
passes `"unchanged"` as the unseen-index placeholder and `"nothing"` as the
unseen-worktree placeholder. -/
theorem change_column_rendering :
    (∀ (ad : adddel) (ph : String),
      (ad.binary = true → populate_wi_changes ad ph = "binary") ∧
      (ad.binary = false → ad.seen = true →
        populate_wi_changes ad ph =
          "+" ++ toString ad.add ++ "/-" ++ toString ad.del) ∧
      (ad.binary = false → ad.seen = false → populate_wi_changes ad ph = ph)) ∧
    (∀ (i : Nat) (c : file_item),
      print_file_item i c =
        " " ++ pad_left 2 (toString (i + 1)) ++ ": " ++
          render_modified (populate_wi_changes c.index "unchanged")
            (populate_wi_changes c.worktree "nothing") c.name) := by
  refine ⟨fun ad ph => ⟨?_, ?_, ?_⟩, fun i c => rfl⟩
  · intro hb
    rw [populate_wi_changes, if_pos hb]
  · intro hb hs
    rw [populate_wi_changes, if_neg (by simp [hb]), if_pos hs]
  · intro hb hs
    rw [populate_wi_changes, if_neg (by simp [hb]), if_neg (by simp [hs])]

theorem change_column_rendering_witness :
    populate_wi_changes ⟨3, 1, true, true⟩ "nothing" = "binary" ∧
    populate_wi_changes ⟨3, 1, true, false⟩ "nothing" = "+3/-1" ∧
    populate_wi_changes ⟨0, 0, false, false⟩ "nothing" = "nothing" ∧
    print_file_item 0 ⟨"a.txt", ⟨3, 1, true, false⟩, adddel.init⟩ =
      " " ++ pad_left 2 (toString 1) ++ ": " ++
        render_modified "+3/-1" "nothing" "a.txt" := by
  refine ⟨(change_column_rendering.1 _ _).1 rfl,
    ((change_column_rendering.1 _ _).2.1 rfl rfl).trans (by decide),
    (change_column_rendering.1 _ _).2.2 rfl rfl,
    (change_column_rendering.2 0 _).trans (by decide)⟩

/-- C9: the base commit is fixed at the start of a run — the empty-tree
sentinel when no commit exists yet (unborn `HEAD`), the resolved `HEAD`
commit otherwise — and the resolved head influences the collection result
only through that base revision, the index pass's comparison target. -/
theorem base_commit_determination (r r' : repository) (l : List file_item) :
    (r.head_oid = none → base_ref r = empty_tree_oid_hex) ∧
    (∀ oid, r.head_oid = some oid → base_ref r = oid) ∧
    (r.index_readable = r'.index_readable →
      r.worktree_batches = r'.worktree_batches →
      r.index_batches = r'.index_batches →
      base_ref r = base_ref r' →
      get_modified_files r l = get_modified_files r' l) := by
  refine ⟨?_, ?_, ?_⟩
  · intro h
    simp [base_ref, h]
  · intro oid h
    simp [base_ref, h]
  · intro e1 e2 e3 e4
    rw [get_modified_files, get_modified_files, e1, e2, e3, e4]

theorem base_commit_determination_witness :
    base_ref demo_repo_unborn = empty_tree_oid_hex ∧
    get_modified_files demo_repo_sentinel [] = get_modified_files demo_repo_unborn [] := by
  refine ⟨(base_commit_determination demo_repo_unborn demo_repo_unborn []).1 rfl,
    (base_commit_determination demo_repo_sentinel demo_repo_unborn []).2.2
      rfl rfl rfl rfl⟩

/-- C1: resolving a path through the registry returns the existing slot
when the name was seen before (the record list keeps exactly its names) and
appends a record only for a first-seen name; consequently the final record
list of any run holds no two records with equal name. -/
theorem collect_final_names_unique :
    (∀ (s : collection_status) (f : diffstat_file) (i : Nat),
      hashmap_get s.file_map f.name = some i →
        names (collect_one s f).list = names s.list) ∧
    (∀ (s : collection_status) (f : diffstat_file),
      hashmap_get s.file_map f.name = none →
        names (collect_one s f).list = names s.list ++ [f.name]) ∧
    (∀ (r : repository) (out : List file_item),
      get_modified_files r [] = .ok out → (out.map file_item.name).Nodup) := by
  refine ⟨?_, ?_, ?_⟩
  · intro s f i hg
    rw [collect_one_hit hg]
    exact names_modify s.list i s.phase f
  · intro s f hg
    rcases collect_one_list_shape s f with ⟨i, hgi, _⟩ | ⟨_, hlist⟩
    · rw [hg] at hgi
      exact absurd hgi (by simp)
    · rw [hlist, names_append, update_file_name]
  · intro r out h
    exact collect_out_names_nodup h

theorem collect_final_names_unique_witness :
    names (collect_one demo_state ⟨"b.bin", 0, 0, true⟩).list =
      names demo_state.list ++ ["b.bin"] ∧
    (demo_out.map file_item.name).Nodup :=
  ⟨collect_final_names_unique.2.1 demo_state ⟨"b.bin", 0, 0, true⟩ rfl,
    collect_final_names_unique.2.2 demo_repo demo_out rfl⟩

/-- C2: after both phases and the sort, the returned record list is
strictly ascending by name under byte-wise lexicographic comparison — every
adjacent-or-later pair compares `lt`, so with unique names the order is
total and tie-free. -/
theorem collect_final_sorted_strict (r : repository) (out : List file_item)
    (h : get_modified_files r [] = .ok out) :
    List.Pairwise (fun a b => strcmp a.name b.name = Ordering.lt) out :=
  collect_out_pairwise_lt h

theorem collect_final_sorted_strict_witness :
    List.Pairwise (fun a b => strcmp a.name b.name = Ordering.lt) demo_out :=
  collect_final_sorted_strict demo_repo demo_out rfl

/-- C4: a reported tuple is written into its path's phase sub-record by
setting the seen flag, overwriting the added and deleted counts, and OR-ing
the binary flag; and once a sub-record's binary flag is true, no sequence
of later collection steps in the run resets it. -/
theorem phase_write_semantics_binary_sticky :
    (∀ (ad : adddel) (f : diffstat_file),
      write_adddel ad f =
        { add := f.added, del := f.deleted, seen := true,
          binary := ad.binary || f.is_binary }) ∧
    (∀ (s : collection_status) (ps : List (Phase × diffstat_file)) (j : Nat)
      (h : j < s.list.length) (h' : j < (ps.foldl step s).list.length),
      ((s.list[j]).index.binary = true →
        (((ps.foldl step s).list[j]).index.binary = true)) ∧
      ((s.list[j]).worktree.binary = true →
        (((ps.foldl step s).list[j]).worktree.binary = true))) := by
  refine ⟨?_, ?_⟩
  · intro ad f
    rcases hb : f.is_binary with _ | _ <;> simp [write_adddel, hb]
  · intro s ps j h h'
    obtain ⟨h'', imp1, imp2⟩ := foldl_step_binary_sticky ps s j h
    exact ⟨imp1, imp2⟩

theorem phase_write_semantics_binary_sticky_witness :
    write_adddel ⟨7, 7, false, true⟩ ⟨"a.txt", 1, 2, false⟩ = ⟨1, 2, true, true⟩ ∧
    ((demo_steps.foldl step demo_state_bin).list.get ⟨0, by decide⟩).index.binary
      = true := by
  refine ⟨(phase_write_semantics_binary_sticky.1 ⟨7, 7, false, true⟩
      ⟨"a.txt", 1, 2, false⟩).trans (by decide), ?_⟩
  exact (phase_write_semantics_binary_sticky.2 demo_state_bin demo_steps 0
    (by decide) (by decide)).1 (by decide)

/-- C5: a collection step in the worktree phase leaves every existing
record's index sub-record untouched, and symmetrically for the index phase;
hence a path never reported by the index pass ends the run with a
zero-initialized index sub-record (seen false, zero counts), and
symmetrically for paths never reported by the worktree pass. -/
theorem phase_isolation :
    (∀ (s : collection_status) (f : diffstat_file) (j : Nat)
      (h : j < s.list.length) (h' : j < (collect_one s f).list.length),
      (s.phase = .FROM_WORKTREE →
        ((collect_one s f).list[j]).index = (s.list[j]).index) ∧
      (s.phase = .FROM_INDEX →
        ((collect_one s f).list[j]).worktree = (s.list[j]).worktree)) ∧
    (∀ (r : repository) (out : List file_item),
      get_modified_files r [] = .ok out → ∀ it ∈ out,
        (it.name ∉ ((r.index_batches (base_ref r)).flatten.map diffstat_file.name) →
          it.index = adddel.init) ∧
        (it.name ∉ (r.worktree_batches.flatten.map diffstat_file.name) →
          it.worktree = adddel.init)) := by
  refine ⟨?_, ?_⟩
  · intro s f j h h'
    obtain ⟨h'', hc⟩ := collect_one_getElem_cases s f j h
    rcases hc with hc | hc
    · rw [hc]
      exact ⟨fun _ => rfl, fun _ => rfl⟩
    · constructor
      · intro hp
        rw [hc, hp]
        exact update_file_worktree_frame _ f
      · intro hp
        rw [hc, hp]
        exact update_file_index_frame _ f
  · intro r out h it hit
    have hspec := collect_mem_spec h hit
    constructor
    · intro hn
      rw [hspec]
      show (spec_item (trace r) it.name).index = adddel.init
      exact acc_stat_init_of_not_reported r .FROM_INDEX it.name hn
    · intro hn
      rw [hspec]
      show (spec_item (trace r) it.name).worktree = adddel.init
      exact acc_stat_init_of_not_reported r .FROM_WORKTREE it.name hn

theorem phase_isolation_witness :
    ((collect_one { demo_state with phase := Phase.FROM_INDEX }
        ⟨"a.txt", 5, 5, false⟩).list.get ⟨0, by decide⟩).worktree =
      (demo_state.list.get ⟨0, by decide⟩).worktree ∧
    (demo_out.get ⟨1, by decide⟩).worktree = adddel.init := by
  refine ⟨(phase_isolation.1 { demo_state with phase := Phase.FROM_INDEX }
      ⟨"a.txt", 5, 5, false⟩ 0 (by decide) (by decide)).2 rfl, ?_⟩
  exact (phase_isolation.2 demo_repo demo_out rfl (demo_out.get ⟨1, by decide⟩)
    (by decide)).2 (by decide)

/-- C8: on a successful run the presenter emits, for a non-empty sorted
list, the header and then one line per record — the record at sorted
position `j` carries the 1-based number `j + 1`, the index column, the
worktree column and the path — followed by one trailing blank line; for an
empty list it emits only the trailing blank line, with no header and no
per-record lines. -/
theorem presenter_line_structure (r : repository) (files sorted : List file_item)
    (hdr : String) (out : List String)
    (h : run_status r files (some hdr) = .ok (sorted, out)) :
    (sorted.length = 0 → out = [""]) ∧
    (sorted.length ≠ 0 →
      out.length = sorted.length + 2 ∧
      out[0]? = some hdr ∧
      (∀ j (hj : j < sorted.length),
        out[j + 1]? = some (" " ++ pad_left 2 (toString (j + 1)) ++ ": " ++
          render_modified (populate_wi_changes ((sorted[j]).index) "unchanged")
            (populate_wi_changes ((sorted[j]).worktree) "nothing")
            ((sorted[j]).name))) ∧
      out[sorted.length + 1]? = some "") := by
  obtain ⟨hget, hout⟩ := run_status_ok h
  constructor
  · intro h0
    rw [hout, if_neg (by simp [h0]), List.nil_append]
  · intro hne
    have hml : list_lines sorted (some hdr) = hdr :: list_item_lines 0 sorted := by
      rw [list_lines, if_neg hne]
      rfl
    rw [hout, if_pos hne, hml]
    refine ⟨?_, ?_, ?_, ?_⟩
    · simp [list_item_lines_length]
    · rw [List.cons_append, List.getElem?_cons_zero]
    · intro j hj
      rw [List.cons_append, List.getElem?_cons_succ, List.getElem?_append,
        if_pos (by rw [list_item_lines_length]; exact hj),
        list_item_lines_getElem?, List.getElem?_eq_getElem hj]
      simp [print_file_item]
    · rw [List.cons_append, List.getElem?_cons_succ,
        List.getElem?_append_right (by rw [list_item_lines_length]),
        list_item_lines_length]
      simp

theorem presenter_line_structure_witness :
    run_status demo_repo [] (some status_header) = .ok (demo_out, demo_lines) ∧
    demo_lines[0]? = some status_header ∧
    demo_lines[1]? = some (" " ++ pad_left 2 (toString 1) ++ ": " ++
      render_modified
        (populate_wi_changes ((demo_out.get ⟨0, by decide⟩).index) "unchanged")
        (populate_wi_changes ((demo_out.get ⟨0, by decide⟩).worktree) "nothing")
        ((demo_out.get ⟨0, by decide⟩).name)) ∧
    demo_lines[3]? = some "" := by
  have t := presenter_line_structure demo_repo [] demo_out status_header demo_lines rfl
  have t2 := t.2 (by decide)
  exact ⟨rfl, t2.2.1, t2.2.2.1 0 (by decide), t2.2.2.2⟩

/-- C3: two runs fed the same multiset of per-path reports per phase (each
path reported at most once per phase, batching and order arbitrary) collect
the same final sorted record list — the same names with the same index and
worktree sub-records. -/
theorem collect_order_independent (r1 r2 : repository)
    (h1 : r1.index_readable = true) (h2 : r2.index_readable = true)
    (hw : (r1.worktree_batches.flatten).Perm (r2.worktree_batches.flatten))
    (hi : ((r1.index_batches (base_ref r1)).flatten).Perm
      ((r2.index_batches (base_ref r2)).flatten))
    (hwn : ((r1.worktree_batches.flatten).map diffstat_file.name).Nodup)
    (hin : (((r1.index_batches (base_ref r1)).flatten).map diffstat_file.name).Nodup) :
    get_modified_files r1 [] = get_modified_files r2 [] := by
  have hw' : (phase_reports r1 .FROM_WORKTREE).Perm (phase_reports r2 .FROM_WORKTREE) := hw
  have hi' : (phase_reports r1 .FROM_INDEX).Perm (phase_reports r2 .FROM_INDEX) := hi
  have hwn' : ((phase_reports r1 .FROM_WORKTREE).map diffstat_file.name).Nodup := hwn
  have hin' : ((phase_reports r1 .FROM_INDEX).map diffstat_file.name).Nodup := hin
  have hspec : ∀ n, spec_item (trace r1) n = spec_item (trace r2) n := by
    intro n
    unfold spec_item
    rw [acc_stat_trace_congr r1 r2 .FROM_INDEX n hi' hin',
      acc_stat_trace_congr r1 r2 .FROM_WORKTREE n hw' hwn']
  have hnames_perm : ((trace r1).map (fun pf => pf.2.name)).Perm
      ((trace r2).map (fun pf => pf.2.name)) := by
    rw [trace_names_eq, trace_names_eq]
    exact (hw'.map diffstat_file.name).append (hi'.map diffstat_file.name)
  obtain ⟨⟨inv1a, inv1b, nodup1⟩, memb1, char1⟩ := trace_run_char (trace r1)
  obtain ⟨⟨inv2a, inv2b, nodup2⟩, memb2, char2⟩ := trace_run_char (trace r2)
  have hitem1 : ∀ it ∈ (trace_run (trace r1)).list,
      it = spec_item (trace r1) it.name := by
    intro it hit
    obtain ⟨j, hj, hje⟩ := List.mem_iff_getElem.mp hit
    have hc := char1 j hj
    rw [hje] at hc
    exact hc
  have hitem2 : ∀ it ∈ (trace_run (trace r2)).list,
      it = spec_item (trace r2) it.name := by
    intro it hit
    obtain ⟨j, hj, hje⟩ := List.mem_iff_getElem.mp hit
    have hc := char2 j hj
    rw [hje] at hc
    exact hc
  have hmem : ∀ it, it ∈ (trace_run (trace r1)).list ↔
      it ∈ (trace_run (trace r2)).list := by
    intro it
    constructor
    · intro hit
      have hn1 : it.name ∈ names (trace_run (trace r1)).list := by
        rw [names]
        exact List.mem_map.mpr ⟨it, hit, rfl⟩
      have hn2 : it.name ∈ names (trace_run (trace r2)).list :=
        (memb2 _).mpr (hnames_perm.mem_iff.mp ((memb1 _).mp hn1))
      rw [names] at hn2
      obtain ⟨it2, hit2, hit2n⟩ := List.mem_map.mp hn2
      have he2 := hitem2 it2 hit2
      rw [hit2n] at he2
      rw [hitem1 it hit, hspec it.name, ← he2]
      exact hit2
    · intro hit
      have hn1 : it.name ∈ names (trace_run (trace r2)).list := by
        rw [names]
        exact List.mem_map.mpr ⟨it, hit, rfl⟩
      have hn2 : it.name ∈ names (trace_run (trace r1)).list :=
        (memb1 _).mpr (hnames_perm.symm.mem_iff.mp ((memb2 _).mp hn1))
      rw [names] at hn2
      obtain ⟨it1, hit1, hit1n⟩ := List.mem_map.mp hn2
      have he1 := hitem1 it1 hit1
      rw [hit1n] at he1
      rw [hitem2 it hit, ← hspec it.name, ← he1]
      exact hit1
  have hnd1 : (trace_run (trace r1)).list.Nodup :=
    List.Nodup.of_map file_item.name nodup1
  have hnd2 : (trace_run (trace r2)).list.Nodup :=
    List.Nodup.of_map file_item.name nodup2
  have hperm12 : (trace_run (trace r1)).list.Perm (trace_run (trace r2)).list :=
    (List.perm_ext_iff_of_nodup hnd1 hnd2).mpr hmem
  rw [get_modified_files_eq_trace r1 h1, get_modified_files_eq_trace r2 h2]
  congr 1
  have hsp : (sort_by_name (trace_run (trace r1)).list).Perm
      (sort_by_name (trace_run (trace r2)).list) :=
    ((List.perm_insertionSort _ _).trans hperm12).trans
      (List.perm_insertionSort _ _).symm
  have hs1 : List.Sorted file_item_lt (sort_by_name (trace_run (trace r1)).list) :=
    sorted_pairwise_lt (List.sorted_insertionSort _ _)
      (((List.perm_insertionSort file_item_le _).map file_item.name).symm.nodup nodup1)
  have hs2 : List.Sorted file_item_lt (sort_by_name (trace_run (trace r2)).list) :=
    sorted_pairwise_lt (List.sorted_insertionSort _ _)
      (((List.perm_insertionSort file_item_le _).map file_item.name).symm.nodup nodup2)
  exact List.eq_of_perm_of_sorted hsp hs1 hs2

theorem collect_order_independent_witness :
    ((demo_repo.index_batches (base_ref demo_repo)).flatten).Perm
      ((demo_repo_swapped.index_batches (base_ref demo_repo_swapped)).flatten) ∧
    get_modified_files demo_repo [] = get_modified_files demo_repo_swapped [] :=
  ⟨by decide, collect_order_independent demo_repo demo_repo_swapped rfl rfl
    (by decide) (by decide) (by decide) (by decide)⟩

end AddInteractive
